import Mathlib

/-!
Verification of the Airman telemetry transmitter (Level-1 `acc.c` /
`telemetry_tx_level1` and Level-2 `ahrs_filter.c`).

The development shallowly embeds the C sources:
* the two checksum routines (`calculate_checksum`, `crc16_ccitt`) become
  computable functions on byte lists (`List ℕ`, each entry a byte value),
  with all 8/16-bit machine arithmetic made explicit via `% 256` / `% 65536`;
  the `while (*p)` loops of the C code stop at the first zero byte, and so do
  the embeddings;
* the Madgwick-style AHRS filter (`madgwick_update`, `ahrs_get_euler`)
  becomes a function on quaternions with real-number components, the exact
  real-arithmetic idealization of the C `float` computations;
* the telemetry frame construction of `main` (the `snprintf`/`printf`
  composition) becomes a function producing `List Char`.
-/

namespace Airman

/-! ## Byte-list view of C strings -/

/-- The byte values of the characters of a string, as passed to the C
checksum routines (`const char *`). -/
def strBytes (s : String) : List ℕ := s.data.map Char.toNat

/-! ## Level-1 XOR checksum (`calculate_checksum` in the Level-1 transmitter)

```c
unsigned char calculate_checksum(const char *buf) {
    unsigned char chk = 0;
    while (*buf) { chk ^= (unsigned char)*buf; buf++; }
    return chk;
}
``` -/

/-- One pass of the `while (*buf)` loop with accumulator `chk`; the loop
stops at the first zero byte.  `chk` is an `unsigned char`, hence `% 256`. -/
def calculate_checksum_aux (chk : ℕ) : List ℕ → ℕ
  | [] => chk
  | b :: bs => if b = 0 then chk else calculate_checksum_aux ((chk ^^^ b) % 256) bs

/-- `calculate_checksum` of the Level-1 transmitter: 8-bit running XOR of
every byte before the terminating NUL. -/
def calculate_checksum (s : List ℕ) : ℕ := calculate_checksum_aux 0 s

/-! ## Level-2 CRC16-CCITT (`crc16_ccitt` in `ahrs_filter.c`)

```c
static unsigned short crc16_ccitt(const char *data) {
    unsigned short crc = 0xFFFF;
    while (*data) {
        crc ^= ((unsigned short)(*data++) << 8);
        for (int i = 0; i < 8; i++) {
            if (crc & 0x8000) crc = (crc << 1) ^ 0x1021;
            else              crc <<= 1;
        }
    }
    return crc;
}
``` -/

/-- One iteration of the inner `for` loop: shift the 16-bit register left,
XORing in the polynomial `0x1021` when the top bit was set.  Storage in the
`unsigned short` register truncates to 16 bits (`% 65536`). -/
def crc16_round (c : ℕ) : ℕ :=
  if c &&& 0x8000 ≠ 0 then ((c <<< 1) ^^^ 0x1021) % 65536 else (c <<< 1) % 65536

/-- Absorb one payload byte: XOR it into the top byte of the register, then
run the 8 shift rounds. -/
def crc16_byte (c b : ℕ) : ℕ := crc16_round^[8] ((c ^^^ (b <<< 8)) % 65536)

/-- The `while (*data)` loop of `crc16_ccitt`: process bytes until the first
zero byte. -/
def crc16_aux (c : ℕ) : List ℕ → ℕ
  | [] => c
  | b :: bs => if b = 0 then c else crc16_aux (crc16_byte c b) bs

/-- `crc16_ccitt`: polynomial `0x1021`, initial register `0xFFFF`, MSB-first,
no final XOR. -/
def crc16_ccitt (s : List ℕ) : ℕ := crc16_aux 0xFFFF s

/-! ## Claims C4, C9: known checksum test vectors -/

set_option maxRecDepth 4000 in
/-- C4: the CRC16 checksum function (polynomial 0x1021, initial register
0xFFFF, no final XOR, MSB-first byte processing) applied to the
nine-character string "123456789" returns exactly 0x29B1. -/
theorem crc16_ccitt_check_value : crc16_ccitt (strBytes ("123456789")) = 0x29B1 := by
  decide

/-- C9: the Level-1 XOR checksum applied to the two-character payload "AB"
returns exactly 0x03 (0x41 XOR 0x42). -/
theorem calculate_checksum_check_value : calculate_checksum (strBytes ("AB")) = 0x03 := by
  decide

/-! ## Claim C10: NUL-terminated treatment of both checksums -/

lemma calculate_checksum_aux_takeWhile (s : List ℕ) :
    ∀ c, calculate_checksum_aux c (s.takeWhile (fun b => b != 0)) =
      calculate_checksum_aux c s := by
  induction s with
  | nil => intro c; rfl
  | cons b bs ih =>
      intro c
      by_cases hb : b = 0
      · subst hb; simp [List.takeWhile_cons, calculate_checksum_aux]
      · simp [List.takeWhile_cons, hb, calculate_checksum_aux, ih]

lemma crc16_aux_takeWhile (s : List ℕ) :
    ∀ c, crc16_aux c (s.takeWhile (fun b => b != 0)) = crc16_aux c s := by
  induction s with
  | nil => intro c; rfl
  | cons b bs ih =>
      intro c
      by_cases hb : b = 0
      · subst hb; simp [List.takeWhile_cons, crc16_aux]
      · simp [List.takeWhile_cons, hb, crc16_aux, ih]

/-- C10: both checksum functions treat their input as a NUL-terminated
string: the checksum of `s` equals the checksum of the prefix of `s` before
the first zero byte (so bytes at or after a zero byte have no effect), the
CRC16 of the empty string is 0xFFFF, and the XOR checksum of the empty
string is 0x00. -/
theorem checksums_nul_terminated (s : List ℕ) :
    crc16_ccitt s = crc16_ccitt (s.takeWhile (fun b => b != 0)) ∧
    calculate_checksum s = calculate_checksum (s.takeWhile (fun b => b != 0)) ∧
    crc16_ccitt [] = 0xFFFF ∧ calculate_checksum [] = 0 := by
  refine ⟨(crc16_aux_takeWhile s 0xFFFF).symm,
    (calculate_checksum_aux_takeWhile s 0).symm, rfl, rfl⟩

/-! ## Claim C5: single-bit corruption detection

Machinery: each CRC16 round is injective on 16-bit registers, hence two runs
whose registers ever differ end with different checksums; a single-bit flip
in a byte makes the registers differ right after that byte.  The same holds
for the 8-bit XOR accumulator.  The claim as stated is nevertheless false,
because both routines stop at a zero byte (NUL-terminated treatment). -/

lemma mod_two_pow_xor (x y n : ℕ) :
    (x ^^^ y) % 2 ^ n = (x % 2 ^ n) ^^^ (y % 2 ^ n) := by
  apply Nat.eq_of_testBit_eq
  intro i
  simp only [Nat.testBit_mod_two_pow, Nat.testBit_xor]
  cases h : decide (i < n) <;> simp

lemma crc16_round_lt (c : ℕ) : crc16_round c < 65536 := by
  unfold crc16_round
  split <;> exact Nat.mod_lt _ (by norm_num)

lemma crc16_top_bit (c : ℕ) : c &&& 0x8000 ≠ 0 ↔ c / 32768 % 2 = 1 := by
  rw [show (0x8000 : ℕ) = 2 ^ 15 by norm_num, Nat.and_two_pow,
    Nat.testBit_to_div_mod]
  rcases h : decide (c / 2 ^ 15 % 2 = 1) with _ | _
  · simp only [Bool.toNat_false, Nat.zero_mul]
    simp only [decide_eq_false_iff_not] at h
    norm_num at h ⊢
    omega
  · simp only [Bool.toNat_true, Nat.one_mul]
    simp only [decide_eq_true_eq] at h
    norm_num at h ⊢
    omega

lemma xor_poly_parity (x : ℕ) (hx : x % 2 = 0) : (x ^^^ 0x1021) % 2 = 1 := by
  have h := mod_two_pow_xor x 0x1021 1
  rw [pow_one] at h
  rw [h, hx]
  rfl

lemma shiftLeft_one_parity (c : ℕ) : (c <<< 1) % 2 = 0 := by
  rw [Nat.shiftLeft_eq]
  omega

lemma crc16_round_inj {c c' : ℕ} (hc : c < 65536) (hc' : c' < 65536)
    (h : crc16_round c = crc16_round c') : c = c' := by
  unfold crc16_round at h
  by_cases h1 : c &&& 0x8000 ≠ 0 <;> by_cases h2 : c' &&& 0x8000 ≠ 0
  · rw [if_pos h1, if_pos h2,
      show (65536 : ℕ) = 2 ^ 16 by norm_num, mod_two_pow_xor, mod_two_pow_xor,
      show (0x1021 : ℕ) % 2 ^ 16 = 0x1021 by norm_num] at h
    have h' : (c <<< 1) % 2 ^ 16 = (c' <<< 1) % 2 ^ 16 := by
      have := congrArg (· ^^^ 0x1021) h
      simpa [Nat.xor_assoc] using this
    rw [Nat.shiftLeft_eq, Nat.shiftLeft_eq] at h'
    rw [crc16_top_bit] at h1 h2
    norm_num at h'
    omega
  · exfalso
    rw [if_pos h1, if_neg h2] at h
    have hL : ((c <<< 1) ^^^ 0x1021) % 65536 % 2 = 1 := by
      rw [Nat.mod_mod_of_dvd _ (by norm_num : (2 : ℕ) ∣ 65536)]
      exact xor_poly_parity _ (shiftLeft_one_parity c)
    have hR : (c' <<< 1) % 65536 % 2 = 0 := by
      rw [Nat.mod_mod_of_dvd _ (by norm_num : (2 : ℕ) ∣ 65536)]
      exact shiftLeft_one_parity c'
    rw [h] at hL
    omega
  · exfalso
    rw [if_neg h1, if_pos h2] at h
    have hL : ((c' <<< 1) ^^^ 0x1021) % 65536 % 2 = 1 := by
      rw [Nat.mod_mod_of_dvd _ (by norm_num : (2 : ℕ) ∣ 65536)]
      exact xor_poly_parity _ (shiftLeft_one_parity c')
    have hR : (c <<< 1) % 65536 % 2 = 0 := by
      rw [Nat.mod_mod_of_dvd _ (by norm_num : (2 : ℕ) ∣ 65536)]
      exact shiftLeft_one_parity c
    rw [← h] at hL
    omega
  · rw [if_neg h1, if_neg h2, Nat.shiftLeft_eq, Nat.shiftLeft_eq] at h
    have h1' : ¬ c / 32768 % 2 = 1 := fun hx => h1 ((crc16_top_bit c).mpr hx)
    have h2' : ¬ c' / 32768 % 2 = 1 := fun hx => h2 ((crc16_top_bit c').mpr hx)
    norm_num at h
    omega

lemma crc16_rounds_lt (n : ℕ) (hn : 0 < n) (c : ℕ) :
    crc16_round^[n] c < 65536 := by
  cases n with
  | zero => omega
  | succ m =>
      rw [Function.iterate_succ_apply']
      exact crc16_round_lt _

lemma crc16_rounds_inj (n : ℕ) :
    ∀ {a b : ℕ}, a < 65536 → b < 65536 →
      crc16_round^[n] a = crc16_round^[n] b → a = b := by
  induction n with
  | zero => intro a b _ _ h; simpa using h
  | succ m ih =>
      intro a b ha hb h
      rw [Function.iterate_succ_apply, Function.iterate_succ_apply] at h
      exact crc16_round_inj ha hb (ih (crc16_round_lt a) (crc16_round_lt b) h)

lemma crc16_byte_lt (c b : ℕ) : crc16_byte c b < 65536 :=
  crc16_rounds_lt 8 (by norm_num) _

lemma crc16_byte_inj_state {c c' : ℕ} (b : ℕ) (hc : c < 65536)
    (hc' : c' < 65536) (h : crc16_byte c b = crc16_byte c' b) : c = c' := by
  unfold crc16_byte at h
  have h' := crc16_rounds_inj 8 (Nat.mod_lt _ (by norm_num))
    (Nat.mod_lt _ (by norm_num)) h
  rw [show (65536 : ℕ) = 2 ^ 16 by norm_num, mod_two_pow_xor, mod_two_pow_xor,
    Nat.mod_eq_of_lt (show c < 2 ^ 16 by omega),
    Nat.mod_eq_of_lt (show c' < 2 ^ 16 by omega)] at h'
  have := congrArg (fun z => z ^^^ ((b <<< 8) % 2 ^ 16)) h'
  simpa [Nat.xor_assoc] using this

lemma crc16_byte_inj_byte {c b b' : ℕ} (hc : c < 65536) (hb : b < 256)
    (hb' : b' < 256) (hne : b ≠ b') : crc16_byte c b ≠ crc16_byte c b' := by
  intro h
  unfold crc16_byte at h
  have h' := crc16_rounds_inj 8 (Nat.mod_lt _ (by norm_num))
    (Nat.mod_lt _ (by norm_num)) h
  have hbb : b <<< 8 < 65536 := by rw [Nat.shiftLeft_eq]; omega
  have hbb' : b' <<< 8 < 65536 := by rw [Nat.shiftLeft_eq]; omega
  rw [Nat.mod_eq_of_lt (Nat.xor_lt_two_pow (x := c) (n := 16) (by omega) (by omega)),
    Nat.mod_eq_of_lt (Nat.xor_lt_two_pow (x := c) (n := 16) (by omega) (by omega))] at h'
  have := congrArg (fun z => c ^^^ z) h'
  simp only [Nat.xor_cancel_left] at this
  rw [Nat.shiftLeft_eq, Nat.shiftLeft_eq] at this
  norm_num at this
  omega

lemma crc16_aux_inj :
    ∀ (l : List ℕ) {c c' : ℕ}, c < 65536 → c' < 65536 → c ≠ c' →
      crc16_aux c l ≠ crc16_aux c' l := by
  intro l
  induction l with
  | nil => intro c c' _ _ hne; simpa [crc16_aux] using hne
  | cons b bs ih =>
      intro c c' hc hc' hne
      by_cases hb : b = 0
      · subst hb; simpa [crc16_aux] using hne
      · simp only [crc16_aux, if_neg hb]
        exact ih (crc16_byte_lt c b) (crc16_byte_lt c' b)
          (fun h => hne (crc16_byte_inj_state b hc hc' h))

/-- Flip bit `i` of the byte at position `j` of payload `p`. -/
def flipBitAt (p : List ℕ) (j i : ℕ) : List ℕ :=
  p.set j (p.getD j 0 ^^^ (1 <<< i))

lemma flip_ne_self {b i : ℕ} : b ^^^ (1 <<< i) ≠ b := by
  intro h
  have h2 := congrArg (fun z => b ^^^ z) h
  simp only [Nat.xor_cancel_left, Nat.xor_self] at h2
  rw [Nat.shiftLeft_eq] at h2
  have hp : 0 < 2 ^ i := Nat.pos_pow_of_pos i (by norm_num)
  omega

lemma flip_lt_256 {b i : ℕ} (hb : b < 256) (hi : i < 8) :
    b ^^^ (1 <<< i) < 256 := by
  have h1 : 1 <<< i < 256 := by
    rw [Nat.shiftLeft_eq]
    calc 1 * 2 ^ i ≤ 1 * 2 ^ 7 := by
          apply Nat.mul_le_mul_left
          exact Nat.pow_le_pow_right (by norm_num) (by omega)
      _ < 256 := by norm_num
  exact Nat.xor_lt_two_pow (n := 8) (by omega) (by omega)

lemma crc16_aux_flipBit {i : ℕ} (hi : i < 8) :
    ∀ (p : List ℕ) (j : ℕ) (c : ℕ), j < p.length →
      (∀ b ∈ p, b ≠ 0 ∧ b < 256) → c < 65536 →
      p.getD j 0 ^^^ (1 <<< i) ≠ 0 →
      crc16_aux c (p.set j (p.getD j 0 ^^^ (1 <<< i))) ≠ crc16_aux c p := by
  intro p
  induction p with
  | nil => intro j c hj; simp at hj
  | cons b bs ih =>
      intro j c hj hbytes hc hflip
      rcases j with _ | j'
      · simp only [List.getD_cons_zero] at hflip ⊢
        simp only [List.set_cons_zero]
        have hb0 : b ≠ 0 := (hbytes b (List.mem_cons_self b bs)).1
        have hb256 : b < 256 := (hbytes b (List.mem_cons_self b bs)).2
        simp only [crc16_aux, if_neg hb0, if_neg hflip]
        apply crc16_aux_inj bs (crc16_byte_lt c _) (crc16_byte_lt c _)
        exact crc16_byte_inj_byte hc (flip_lt_256 hb256 hi) hb256 flip_ne_self
      · simp only [List.getD_cons_succ] at hflip ⊢
        simp only [List.set_cons_succ]
        have hb0 : b ≠ 0 := (hbytes b (List.mem_cons_self b bs)).1
        simp only [crc16_aux, if_neg hb0]
        exact ih j' (crc16_byte c b) (by simpa using hj)
          (fun x hx => hbytes x (List.mem_cons_of_mem b hx))
          (crc16_byte_lt c b) hflip

lemma xor_aux_lt (c : ℕ) (hc : c < 256) :
    ∀ l, calculate_checksum_aux c l < 256 ∨ calculate_checksum_aux c l = c := by
  intro l
  induction l generalizing c with
  | nil => exact Or.inr rfl
  | cons b bs ih =>
      by_cases hb : b = 0
      · right; simp [calculate_checksum_aux, hb]
      · left
        simp only [calculate_checksum_aux, if_neg hb]
        rcases ih ((c ^^^ b) % 256) (Nat.mod_lt _ (by norm_num)) with h | h
        · exact h
        · rw [h]; exact Nat.mod_lt _ (by norm_num)

lemma xor_step_inj {c c' : ℕ} (b : ℕ) (hc : c < 256) (hc' : c' < 256)
    (h : (c ^^^ b) % 256 = (c' ^^^ b) % 256) : c = c' := by
  rw [show (256 : ℕ) = 2 ^ 8 by norm_num, mod_two_pow_xor, mod_two_pow_xor,
    Nat.mod_eq_of_lt (show c < 2 ^ 8 by omega),
    Nat.mod_eq_of_lt (show c' < 2 ^ 8 by omega)] at h
  have := congrArg (fun z => z ^^^ (b % 2 ^ 8)) h
  simpa [Nat.xor_assoc] using this

lemma xor_aux_inj :
    ∀ (l : List ℕ) {c c' : ℕ}, c < 256 → c' < 256 → c ≠ c' →
      calculate_checksum_aux c l ≠ calculate_checksum_aux c' l := by
  intro l
  induction l with
  | nil => intro c c' _ _ hne; simpa [calculate_checksum_aux] using hne
  | cons b bs ih =>
      intro c c' hc hc' hne
      by_cases hb : b = 0
      · subst hb; simpa [calculate_checksum_aux] using hne
      · simp only [calculate_checksum_aux, if_neg hb]
        exact ih (Nat.mod_lt _ (by norm_num)) (Nat.mod_lt _ (by norm_num))
          (fun h => hne (xor_step_inj b hc hc' h))

lemma xor_step_byte_ne {c b b' : ℕ} (hc : c < 256) (hb : b < 256)
    (hb' : b' < 256) (hne : b ≠ b') : (c ^^^ b) % 256 ≠ (c ^^^ b') % 256 := by
  intro h
  rw [show (256 : ℕ) = 2 ^ 8 by norm_num, mod_two_pow_xor, mod_two_pow_xor,
    Nat.mod_eq_of_lt (show c < 2 ^ 8 by omega),
    Nat.mod_eq_of_lt (show b < 2 ^ 8 by omega),
    Nat.mod_eq_of_lt (show b' < 2 ^ 8 by omega)] at h
  have h2 := congrArg (fun z => c ^^^ z) h
  simp only [Nat.xor_cancel_left] at h2
  exact hne h2

lemma xor_aux_flipBit {i : ℕ} (hi : i < 8) :
    ∀ (p : List ℕ) (j : ℕ) (c : ℕ), j < p.length →
      (∀ b ∈ p, b ≠ 0 ∧ b < 256) → c < 256 →
      p.getD j 0 ^^^ (1 <<< i) ≠ 0 →
      calculate_checksum_aux c (p.set j (p.getD j 0 ^^^ (1 <<< i))) ≠
        calculate_checksum_aux c p := by
  intro p
  induction p with
  | nil => intro j c hj; simp at hj
  | cons b bs ih =>
      intro j c hj hbytes hc hflip
      rcases j with _ | j'
      · simp only [List.getD_cons_zero] at hflip ⊢
        simp only [List.set_cons_zero]
        have hb0 : b ≠ 0 := (hbytes b (List.mem_cons_self b bs)).1
        have hb256 : b < 256 := (hbytes b (List.mem_cons_self b bs)).2
        simp only [calculate_checksum_aux, if_neg hb0, if_neg hflip]
        apply xor_aux_inj bs (Nat.mod_lt _ (by norm_num)) (Nat.mod_lt _ (by norm_num))
        exact xor_step_byte_ne hc (flip_lt_256 hb256 hi) hb256 flip_ne_self
      · simp only [List.getD_cons_succ] at hflip ⊢
        simp only [List.set_cons_succ]
        have hb0 : b ≠ 0 := (hbytes b (List.mem_cons_self b bs)).1
        simp only [calculate_checksum_aux, if_neg hb0]
        exact ih j' ((c ^^^ b) % 256) (by simpa using hj)
          (fun x hx => hbytes x (List.mem_cons_of_mem b hx))
          (Nat.mod_lt _ (by norm_num)) hflip

/-- C5 (amended): for every payload `p` whose bytes are all nonzero (a C
string carries no interior NUL) and every `p'` obtained from `p` by flipping
one bit of one payload byte such that the flipped byte is also nonzero, the
recomputed checksum of `p'` differs from the checksum of `p`, for both the
CRC16-CCITT checksum (Level-2) and the XOR checksum (Level-1). -/
theorem checksum_single_bitflip_detected (p : List ℕ) (j i : ℕ)
    (hj : j < p.length) (hi : i < 8) (hbytes : ∀ b ∈ p, b ≠ 0 ∧ b < 256)
    (hflip : p.getD j 0 ^^^ (1 <<< i) ≠ 0) :
    crc16_ccitt (flipBitAt p j i) ≠ crc16_ccitt p ∧
    calculate_checksum (flipBitAt p j i) ≠ calculate_checksum p :=
  ⟨crc16_aux_flipBit hi p j 0xFFFF hj hbytes (by norm_num) hflip,
   xor_aux_flipBit hi p j 0 hj hbytes (by norm_num) hflip⟩

/-- Witness for C5 (amended): flipping bit 0 of the first byte of the
payload "AB" changes both checksums. -/
theorem checksum_single_bitflip_detected_witness :
    crc16_ccitt (flipBitAt ([65, 66]) 0 0) ≠ crc16_ccitt ([65, 66]) ∧
    calculate_checksum (flipBitAt ([65, 66]) 0 0) ≠
      calculate_checksum ([65, 66]) :=
  checksum_single_bitflip_detected ([65, 66]) 0 0 (by decide) (by decide)
    (by decide) (by decide)

/-- Counterexample to C5 as stated: over arbitrary payload byte strings the
claim fails, because both checksum routines stop at the first zero byte.
Flipping bit 0 of byte 1 of the payload `[0x00, 0x01]` (a flip of exactly
one bit of one payload byte) leaves both the XOR checksum and the CRC16
checksum unchanged, so the corruption is not detected. -/
theorem checksum_single_bitflip_not_detected_counterexample :
    flipBitAt ([0, 1]) 1 0 = [0, 0] ∧
    calculate_checksum (flipBitAt ([0, 1]) 1 0) = calculate_checksum ([0, 1]) ∧
    crc16_ccitt (flipBitAt ([0, 1]) 1 0) = crc16_ccitt ([0, 1]) := by
  decide

/-! ## AHRS layer — Madgwick filter (`ahrs_filter.c`, lines 116–160)

The C `float` state and arithmetic are embedded as exact real arithmetic.
The quaternion state `q0,q1,q2,q3` becomes a `Quat`; the update is split
into the integration step (lines 139–147) and the renormalization step
(lines 149–150), composed after the two degenerate-norm early returns
(lines 131–137). -/

open scoped Classical

/-- One 9-axis IMU sample (`imu_sample_t`). -/
structure ImuSample where
  ax : ℝ
  ay : ℝ
  az : ℝ
  gx : ℝ
  gy : ℝ
  gz : ℝ
  mx : ℝ
  my : ℝ
  mz : ℝ

/-- The filter's quaternion state `q0,q1,q2,q3`. -/
structure Quat where
  q0 : ℝ
  q1 : ℝ
  q2 : ℝ
  q3 : ℝ

noncomputable def deg2rad (d : ℝ) : ℝ := d * (Real.pi / 180)

noncomputable def rad2deg (r : ℝ) : ℝ := r * (180 / Real.pi)

noncomputable def inv_sqrt (x : ℝ) : ℝ := 1 / Real.sqrt x

/-- Lines 139–147: quaternion derivative from angular rate (rad/s) and
first-order Euler integration over `dt`. -/
noncomputable def madgwick_integrate (q : Quat) (gx gy gz dt : ℝ) : Quat :=
  let qDot0 := 0.5 * (-q.q1 * gx - q.q2 * gy - q.q3 * gz)
  let qDot1 := 0.5 * (q.q0 * gx + q.q2 * gz - q.q3 * gy)
  let qDot2 := 0.5 * (q.q0 * gy - q.q1 * gz + q.q3 * gx)
  let qDot3 := 0.5 * (q.q0 * gz + q.q1 * gy - q.q2 * gx)
  ⟨q.q0 + qDot0 * dt, q.q1 + qDot1 * dt, q.q2 + qDot2 * dt, q.q3 + qDot3 * dt⟩

/-- Lines 149–150: renormalize the quaternion with `inv_sqrt`. -/
noncomputable def madgwick_normalize (p : Quat) : Quat :=
  let nrm := inv_sqrt (p.q0 * p.q0 + p.q1 * p.q1 + p.q2 * p.q2 + p.q3 * p.q3)
  ⟨p.q0 * nrm, p.q1 * nrm, p.q2 * nrm, p.q3 * nrm⟩

/-- `madgwick_update` (lines 123–151).  The accelerometer and magnetometer
vectors are only norm-checked and normalized into dead locals (the C code
normalizes `ax..az` and `mx..mz` in place and never reads them again);
the state change depends only on the gyroscope rates and `dt`. -/
noncomputable def madgwick_update (imu : ImuSample) (dt : ℝ) (q : Quat) : Quat :=
  let anorm := Real.sqrt (imu.ax * imu.ax + imu.ay * imu.ay + imu.az * imu.az)
  if anorm = 0 then q
  else
    let _axn := imu.ax / anorm
    let _ayn := imu.ay / anorm
    let _azn := imu.az / anorm
    let mnorm := Real.sqrt (imu.mx * imu.mx + imu.my * imu.my + imu.mz * imu.mz)
    if mnorm = 0 then q
    else
      let _mxn := imu.mx / mnorm
      let _myn := imu.my / mnorm
      let _mzn := imu.mz / mnorm
      madgwick_normalize
        (madgwick_integrate q (deg2rad imu.gx) (deg2rad imu.gy) (deg2rad imu.gz) dt)

/-- Line 116: the state is initialized to the identity quaternion. -/
noncomputable def initQuat : Quat := ⟨1, 0, 0, 0⟩

/-- `atan2f` of libm, as used by `ahrs_get_euler`. -/
noncomputable def atan2 (y x : ℝ) : ℝ :=
  if 0 < x then Real.arctan (y / x)
  else if x < 0 then
    (if 0 ≤ y then Real.arctan (y / x) + Real.pi else Real.arctan (y / x) - Real.pi)
  else (if 0 < y then Real.pi / 2 else if y < 0 then -(Real.pi / 2) else 0)

/-- `ahrs_get_euler` (lines 153–160): reads the quaternion state and writes
roll/pitch/yaw (degrees) through its out-parameters; the function performs
no assignment to the quaternion state, so the state component of the result
is the input state. -/
noncomputable def ahrs_get_euler (q : Quat) : (ℝ × ℝ × ℝ) × Quat :=
  ((rad2deg (atan2 (2 * (q.q0 * q.q1 + q.q2 * q.q3))
      (1 - 2 * (q.q1 * q.q1 + q.q2 * q.q2))),
    rad2deg (Real.arcsin (2 * (q.q0 * q.q2 - q.q3 * q.q1))),
    rad2deg (atan2 (2 * (q.q0 * q.q3 + q.q1 * q.q2))
      (1 - 2 * (q.q2 * q.q2 + q.q3 * q.q3)))),
   q)

/-! ## Spec-side quaternion algebra (for the refinement claim C1) -/

/-- Hamilton product. -/
def quatMul (a b : Quat) : Quat :=
  ⟨a.q0 * b.q0 - a.q1 * b.q1 - a.q2 * b.q2 - a.q3 * b.q3,
   a.q0 * b.q1 + a.q1 * b.q0 + a.q2 * b.q3 - a.q3 * b.q2,
   a.q0 * b.q2 - a.q1 * b.q3 + a.q2 * b.q0 + a.q3 * b.q1,
   a.q0 * b.q3 + a.q1 * b.q2 - a.q2 * b.q1 + a.q3 * b.q0⟩

def quatAdd (a b : Quat) : Quat :=
  ⟨a.q0 + b.q0, a.q1 + b.q1, a.q2 + b.q2, a.q3 + b.q3⟩

def quatSmul (s : ℝ) (a : Quat) : Quat := ⟨s * a.q0, s * a.q1, s * a.q2, s * a.q3⟩

def quatNormSq (a : Quat) : ℝ :=
  a.q0 * a.q0 + a.q1 * a.q1 + a.q2 * a.q2 + a.q3 * a.q3

noncomputable def quatRenorm (a : Quat) : Quat :=
  let n := inv_sqrt (quatNormSq a)
  ⟨a.q0 * n, a.q1 * n, a.q2 * n, a.q3 * n⟩

/-- The spec's description of the update: the renormalization of
`q + dt * qDot` where `qDot = 0.5 * (q ⊗ ω)` and `ω` is the pure quaternion
of the gyroscope rates converted from degrees/sec to radians/sec. -/
noncomputable def gyroOnlyUpdate (q : Quat) (gx gy gz dt : ℝ) : Quat :=
  quatRenorm (quatAdd q (quatSmul dt (quatSmul 0.5
    (quatMul q ⟨0, deg2rad gx, deg2rad gy, deg2rad gz⟩))))

lemma quatRenorm_eq_normalize (p : Quat) : quatRenorm p = madgwick_normalize p := rfl

lemma madgwick_integrate_eq_quatAlgebra (q : Quat) (gx gy gz dt : ℝ) :
    madgwick_integrate q gx gy gz dt =
      quatAdd q (quatSmul dt (quatSmul 0.5 (quatMul q ⟨0, gx, gy, gz⟩))) := by
  simp only [madgwick_integrate, quatAdd, quatSmul, quatMul, Quat.mk.injEq]
  refine ⟨by ring, by ring, by ring, by ring⟩

lemma madgwick_update_nondegenerate (s : ImuSample) (dt : ℝ) (q : Quat)
    (ha : Real.sqrt (s.ax * s.ax + s.ay * s.ay + s.az * s.az) ≠ 0)
    (hm : Real.sqrt (s.mx * s.mx + s.my * s.my + s.mz * s.mz) ≠ 0) :
    madgwick_update s dt q = gyroOnlyUpdate q s.gx s.gy s.gz dt := by
  unfold madgwick_update
  simp only [if_neg ha, if_neg hm]
  unfold gyroOnlyUpdate
  rw [quatRenorm_eq_normalize, ← madgwick_integrate_eq_quatAlgebra]

/-! ## Claim C1: pure gyroscope integration, no accel/mag correction -/

/-- C1: for every sample whose accelerometer and magnetometer vectors have
non-zero norm and every `dt`, the updated quaternion equals the
renormalization of `q + dt * qDot`, `qDot = 0.5 * (q ⊗ ω)` built from the
gyroscope rates converted to rad/s — and therefore depends only on the
prior quaternion, the gyroscope components and `dt`: two non-degenerate
samples with equal gyroscope components produce the same quaternion. -/
theorem madgwick_update_gyro_only (q : Quat) (dt : ℝ) (s1 s2 : ImuSample)
    (h1a : Real.sqrt (s1.ax * s1.ax + s1.ay * s1.ay + s1.az * s1.az) ≠ 0)
    (h1m : Real.sqrt (s1.mx * s1.mx + s1.my * s1.my + s1.mz * s1.mz) ≠ 0)
    (h2a : Real.sqrt (s2.ax * s2.ax + s2.ay * s2.ay + s2.az * s2.az) ≠ 0)
    (h2m : Real.sqrt (s2.mx * s2.mx + s2.my * s2.my + s2.mz * s2.mz) ≠ 0)
    (hgx : s2.gx = s1.gx) (hgy : s2.gy = s1.gy) (hgz : s2.gz = s1.gz) :
    madgwick_update s1 dt q = gyroOnlyUpdate q s1.gx s1.gy s1.gz dt ∧
    madgwick_update s2 dt q = madgwick_update s1 dt q := by
  refine ⟨madgwick_update_nondegenerate s1 dt q h1a h1m, ?_⟩
  rw [madgwick_update_nondegenerate s1 dt q h1a h1m,
    madgwick_update_nondegenerate s2 dt q h2a h2m, hgx, hgy, hgz]

/-- Witness for C1 at concrete inputs: two samples sharing gyro rates but
with different (non-degenerate) accelerometer/magnetometer vectors. -/
theorem madgwick_update_gyro_only_witness :
    madgwick_update ⟨0, 0, 1, 2, 1.5, 12, 1, 0, 0⟩ 0.05 ⟨1, 0, 0, 0⟩ =
      gyroOnlyUpdate ⟨1, 0, 0, 0⟩ 2 1.5 12 0.05 ∧
    madgwick_update ⟨0, 1, 0, 2, 1.5, 12, 0, 0, 1⟩ 0.05 ⟨1, 0, 0, 0⟩ =
      madgwick_update ⟨0, 0, 1, 2, 1.5, 12, 1, 0, 0⟩ 0.05 ⟨1, 0, 0, 0⟩ :=
  madgwick_update_gyro_only ⟨1, 0, 0, 0⟩ 0.05 ⟨0, 0, 1, 2, 1.5, 12, 1, 0, 0⟩
    ⟨0, 1, 0, 2, 1.5, 12, 0, 0, 1⟩
    (by rw [Real.sqrt_ne_zero']; norm_num) (by rw [Real.sqrt_ne_zero']; norm_num)
    (by rw [Real.sqrt_ne_zero']; norm_num) (by rw [Real.sqrt_ne_zero']; norm_num)
    rfl rfl rfl

/-! ## Claim C3: degenerate samples are a no-op -/

/-- C3: if the accelerometer vector or the magnetometer vector has exactly
zero norm, `madgwick_update` returns with the quaternion state unchanged. -/
theorem madgwick_update_degenerate_noop (s : ImuSample) (dt : ℝ) (q : Quat)
    (h : Real.sqrt (s.ax * s.ax + s.ay * s.ay + s.az * s.az) = 0 ∨
         Real.sqrt (s.mx * s.mx + s.my * s.my + s.mz * s.mz) = 0) :
    madgwick_update s dt q = q := by
  unfold madgwick_update
  rcases h with h | h
  · simp [h]
  · by_cases ha : Real.sqrt (s.ax * s.ax + s.ay * s.ay + s.az * s.az) = 0
    · simp [ha]
    · simp [ha, h]

/-- Witness for C3: an all-zero accelerometer sample leaves the state
unchanged. -/
theorem madgwick_update_degenerate_noop_witness :
    madgwick_update ⟨0, 0, 0, 2, 1.5, 12, 0.3, 0, 0.5⟩ 0.05 ⟨1, 0, 0, 0⟩ =
      ⟨1, 0, 0, 0⟩ :=
  madgwick_update_degenerate_noop _ _ _ (Or.inl (by simp))

/-! ## Claim C2: unit-norm invariant -/

lemma quatNormSq_integrate (q : Quat) (gx gy gz dt : ℝ) :
    quatNormSq (madgwick_integrate q gx gy gz dt) =
      quatNormSq q * (1 + dt ^ 2 / 4 * (gx ^ 2 + gy ^ 2 + gz ^ 2)) := by
  simp only [madgwick_integrate, quatNormSq]
  ring

lemma quatNormSq_normalize (p : Quat) (hp : 0 < quatNormSq p) :
    quatNormSq (madgwick_normalize p) = 1 := by
  have hs : Real.sqrt (quatNormSq p) * Real.sqrt (quatNormSq p) = quatNormSq p :=
    Real.mul_self_sqrt hp.le
  have hs0 : Real.sqrt (quatNormSq p) ≠ 0 := by
    rw [Real.sqrt_ne_zero']; exact hp
  simp only [quatNormSq] at hs hs0 hp ⊢
  simp only [madgwick_normalize, inv_sqrt]
  field_simp

lemma madgwick_update_preserves_norm (s : ImuSample) (dt : ℝ) (q : Quat)
    (hq : quatNormSq q = 1) : quatNormSq (madgwick_update s dt q) = 1 := by
  unfold madgwick_update
  by_cases ha : Real.sqrt (s.ax * s.ax + s.ay * s.ay + s.az * s.az) = 0
  · simpa [ha] using hq
  · by_cases hm : Real.sqrt (s.mx * s.mx + s.my * s.my + s.mz * s.mz) = 0
    · simpa [ha, hm] using hq
    · simp only [if_neg ha, if_neg hm]
      apply quatNormSq_normalize
      rw [quatNormSq_integrate, hq, one_mul]
      positivity

/-- The quaternion state after any sequence of update calls starting from
the initial quaternion. -/
noncomputable def runUpdates (dt : ℝ) (samples : List ImuSample) : Quat :=
  samples.foldl (fun q s => madgwick_update s dt q) initQuat

lemma runUpdates_foldl_norm (samples : List ImuSample) (dt : ℝ) :
    ∀ q : Quat, quatNormSq q = 1 →
      quatNormSq (samples.foldl (fun q s => madgwick_update s dt q) q) = 1 := by
  induction samples with
  | nil => intro q hq; simpa using hq
  | cons s rest ih =>
      intro q hq
      simpa using ih (madgwick_update s dt q) (madgwick_update_preserves_norm s dt q hq)

/-- C2: for every sequence of update calls starting from the initial
quaternion (1,0,0,0), the squared norm — hence the magnitude — of the
quaternion state after each update call equals 1 (exactly, in the
real-arithmetic model; "within floating-point tolerance" in the C code). -/
theorem madgwick_norm_invariant (dt : ℝ) (samples : List ImuSample) :
    quatNormSq (runUpdates dt samples) = 1 ∧
    Real.sqrt (quatNormSq (runUpdates dt samples)) = 1 := by
  have h : quatNormSq (runUpdates dt samples) = 1 := by
    apply runUpdates_foldl_norm
    simp [initQuat, quatNormSq]
  exact ⟨h, by rw [h, Real.sqrt_one]⟩

/-! ## Claim C8: state owned by the filter -/

/-- C8: the quaternion state is initialized to the identity quaternion at
startup; reading the Euler angles leaves all four quaternion components
unchanged, both on an arbitrary state and on the state produced by an
update, so only `madgwick_update` mutates the state. -/
theorem quat_state_owned :
    initQuat = ⟨1, 0, 0, 0⟩ ∧
    (∀ q : Quat, (ahrs_get_euler q).2 = q) ∧
    (∀ (s : ImuSample) (dt : ℝ) (q : Quat),
      (ahrs_get_euler (madgwick_update s dt q)).2 = madgwick_update s dt q) :=
  ⟨rfl, fun _ => rfl, fun _ _ _ => rfl⟩

/-! ## Frame encoder (`main` of `ahrs_filter.c`, lines 190–200)

```c
snprintf(payload, sizeof(payload), "L2,%lld,%.2f,%.2f,%.2f,%.2f,%.2f",
         ts, roll, pitch, yaw, altitude, temperature);
unsigned short crc = crc16_ccitt(payload);
printf("$%s*%04X\n", payload, crc);
```

The `printf`-family formatting is modelled over `List Char`: `%lld` of the
non-negative timestamp becomes `natDigits`, `%.2f` becomes `fmt2` (value
scaled by 100 and rounded to an integer; the C library rounds the exact
binary value of the `double`, the model uses `round` on the exact rational
value — the tie-breaking rule is irrelevant to every claim below), `%04X`
of a 16-bit CRC becomes `hex4`. -/

/-- Decimal digits of `n`, most significant first (the rendering of a
non-negative integer by `printf`). -/
def natDigits (n : ℕ) : List Char :=
  if _h : n < 10 then [Nat.digitChar n]
  else natDigits (n / 10) ++ [Nat.digitChar (n % 10)]
decreasing_by exact Nat.div_lt_self (by omega) (by omega)

/-- `%.2f`: optional sign, integer part, `'.'`, exactly two fractional
digits. -/
def fmt2 (x : ℚ) : List Char :=
  let r : ℤ := round (x * 100)
  (if r < 0 then ['-'] else []) ++ natDigits (r.natAbs / 100) ++
    ['.'] ++ [Nat.digitChar (r.natAbs / 10 % 10), Nat.digitChar (r.natAbs % 10)]

/-- One uppercase hexadecimal digit. -/
def hexCharU (d : ℕ) : Char :=
  if d < 10 then Nat.digitChar d else Char.ofNat (55 + d)

/-- `%04X` of a 16-bit value: four uppercase, zero-padded hex digits. -/
def hex4 (n : ℕ) : List Char :=
  [hexCharU (n / 4096 % 16), hexCharU (n / 256 % 16),
   hexCharU (n / 16 % 16), hexCharU (n % 16)]

/-- The telemetry payload (the bytes between `$` and `*`): tag `L2`
followed by six comma-joined fields. -/
def payloadChars (ts : ℕ) (roll pitch yaw alt temp : ℚ) : List Char :=
  ['L', '2', ','] ++ natDigits ts ++ [','] ++ fmt2 roll ++ [','] ++ fmt2 pitch ++
    [','] ++ fmt2 yaw ++ [','] ++ fmt2 alt ++ [','] ++ fmt2 temp

/-- The complete wire frame `$<payload>*<CRC16 hex4>\n`. -/
def frameChars (ts : ℕ) (roll pitch yaw alt temp : ℚ) : List Char :=
  ['$'] ++ payloadChars ts roll pitch yaw alt temp ++ ['*'] ++
    hex4 (crc16_ccitt ((payloadChars ts roll pitch yaw alt temp).map Char.toNat)) ++
    ['\n']

/-- The decoder's checksum subject: the bytes strictly between the `$` and
the `*` delimiters. -/
def extractBetween (l : List Char) : List Char :=
  ((l.dropWhile (fun c => c ≠ '$')).drop 1).takeWhile (fun c => c ≠ '*')

/-- The shape `%.2f` guarantees: the rendering ends with a dot followed by
exactly two decimal digits, and contains no other dot. -/
def twoDecimals (l : List Char) : Prop :=
  ∃ pre d1 d2, l = pre ++ ['.', d1, d2] ∧
    (48 ≤ d1.toNat ∧ d1.toNat ≤ 57) ∧ (48 ≤ d2.toNat ∧ d2.toNat ≤ 57) ∧
    ('.') ∉ pre

/-- Uppercase hexadecimal digit ('0'–'9' or 'A'–'F'). -/
def isUpperHexChar (c : Char) : Prop :=
  (48 ≤ c.toNat ∧ c.toNat ≤ 57) ∨ (65 ≤ c.toNat ∧ c.toNat ≤ 70)

lemma digitChar_range :
    ∀ d : ℕ, d < 10 → 48 ≤ (Nat.digitChar d).toNat ∧ (Nat.digitChar d).toNat ≤ 57 := by
  decide

lemma natDigits_chars :
    ∀ n : ℕ, ∀ c ∈ natDigits n, 48 ≤ c.toNat ∧ c.toNat ≤ 57 := by
  intro n
  induction n using Nat.strong_induction_on with
  | _ n ih =>
      intro c hc
      unfold natDigits at hc
      split at hc
      · simp only [List.mem_singleton] at hc
        subst hc
        exact digitChar_range _ (by assumption)
      · rcases List.mem_append.mp hc with h | h
        · exact ih _ (Nat.div_lt_self (by omega) (by omega)) c h
        · simp only [List.mem_singleton] at h
          subst h
          exact digitChar_range _ (Nat.mod_lt _ (by omega))

lemma fmt2_chars (x : ℚ) :
    ∀ c ∈ fmt2 x,
      c.toNat = 45 ∨ c.toNat = 46 ∨ (48 ≤ c.toNat ∧ c.toNat ≤ 57) := by
  intro c hc
  unfold fmt2 at hc
  simp only [List.append_assoc, List.mem_append] at hc
  rcases hc with h | h | h
  · split at h
    · simp only [List.mem_singleton] at h
      subst h
      left; rfl
    · simp at h
  · right; right; exact natDigits_chars _ c h
  · simp only [List.mem_cons, List.not_mem_nil, or_false] at h
    rcases h with h | h | h
    · subst h; right; left; rfl
    · subst h; right; right; exact digitChar_range _ (Nat.mod_lt _ (by omega))
    · subst h; right; right; exact digitChar_range _ (Nat.mod_lt _ (by omega))

lemma payloadChars_chars (ts : ℕ) (roll pitch yaw alt temp : ℚ) :
    ∀ c ∈ payloadChars ts roll pitch yaw alt temp,
      c.toNat = 76 ∨ c.toNat = 44 ∨ c.toNat = 45 ∨ c.toNat = 46 ∨
        (48 ≤ c.toNat ∧ c.toNat ≤ 57) := by
  have hnat : ∀ n : ℕ, ∀ c ∈ natDigits n,
      c.toNat = 76 ∨ c.toNat = 44 ∨ c.toNat = 45 ∨ c.toNat = 46 ∨
        (48 ≤ c.toNat ∧ c.toNat ≤ 57) := by
    intro n c hc
    have := natDigits_chars n c hc
    omega
  have hf : ∀ x : ℚ, ∀ c ∈ fmt2 x,
      c.toNat = 76 ∨ c.toNat = 44 ∨ c.toNat = 45 ∨ c.toNat = 46 ∨
        (48 ≤ c.toNat ∧ c.toNat ≤ 57) := by
    intro x c hc
    rcases fmt2_chars x c hc with h | h | h <;> omega
  have hcomma : ∀ c ∈ ([','] : List Char),
      c.toNat = 76 ∨ c.toNat = 44 ∨ c.toNat = 45 ∨ c.toNat = 46 ∨
        (48 ≤ c.toNat ∧ c.toNat ≤ 57) := by
    decide
  have htag : ∀ c ∈ (['L', '2', ','] : List Char),
      c.toNat = 76 ∨ c.toNat = 44 ∨ c.toNat = 45 ∨ c.toNat = 46 ∨
        (48 ≤ c.toNat ∧ c.toNat ≤ 57) := by
    decide
  unfold payloadChars
  exact List.forall_mem_append.mpr ⟨List.forall_mem_append.mpr
    ⟨List.forall_mem_append.mpr ⟨List.forall_mem_append.mpr
      ⟨List.forall_mem_append.mpr ⟨List.forall_mem_append.mpr
        ⟨List.forall_mem_append.mpr ⟨List.forall_mem_append.mpr
          ⟨List.forall_mem_append.mpr ⟨List.forall_mem_append.mpr
            ⟨List.forall_mem_append.mpr ⟨htag, hnat ts⟩, hcomma⟩,
              hf roll⟩, hcomma⟩, hf pitch⟩, hcomma⟩, hf yaw⟩, hcomma⟩,
                hf alt⟩, hcomma⟩, hf temp⟩

lemma payloadChars_no_star (ts : ℕ) (roll pitch yaw alt temp : ℚ) :
    ∀ c ∈ payloadChars ts roll pitch yaw alt temp, c ≠ '*' := by
  intro c hc heq
  have h := payloadChars_chars ts roll pitch yaw alt temp c hc
  subst heq
  have h42 : ('*').toNat = 42 := rfl
  rw [h42] at h
  omega

lemma takeWhile_ne_star_append {P t : List Char} (hP : ∀ c ∈ P, c ≠ '*') :
    (P ++ '*' :: t).takeWhile (fun c => c ≠ '*') = P := by
  induction P with
  | nil =>
      rw [List.nil_append, List.takeWhile_cons, if_neg (by simp)]
  | cons a as ih =>
      have ha : a ≠ '*' := hP a (List.mem_cons_self a as)
      rw [List.cons_append, List.takeWhile_cons, if_pos (by simp [ha]),
        ih (fun c hc => hP c (List.mem_cons_of_mem a hc))]

lemma extractBetween_frame (ts : ℕ) (roll pitch yaw alt temp : ℚ) :
    extractBetween (frameChars ts roll pitch yaw alt temp) =
      payloadChars ts roll pitch yaw alt temp := by
  unfold extractBetween frameChars
  rw [show (['$'] ++ payloadChars ts roll pitch yaw alt temp ++ ['*'] ++
      hex4 (crc16_ccitt ((payloadChars ts roll pitch yaw alt temp).map Char.toNat)) ++
      ['\n'] : List Char) =
    '$' :: (payloadChars ts roll pitch yaw alt temp ++ '*' ::
      (hex4 (crc16_ccitt ((payloadChars ts roll pitch yaw alt temp).map Char.toNat)) ++
        ['\n'])) by simp]
  rw [List.dropWhile_cons, if_neg (by simp), List.drop_one, List.tail_cons]
  exact takeWhile_ne_star_append (payloadChars_no_star ts roll pitch yaw alt temp)

lemma fmt2_twoDecimals (x : ℚ) : twoDecimals (fmt2 x) := by
  refine ⟨(if round (x * 100) < 0 then ['-'] else []) ++
      natDigits ((round (x * 100)).natAbs / 100),
    Nat.digitChar ((round (x * 100)).natAbs / 10 % 10),
    Nat.digitChar ((round (x * 100)).natAbs % 10), ?_, ?_, ?_, ?_⟩
  · unfold fmt2
    simp
  · exact digitChar_range _ (Nat.mod_lt _ (by omega))
  · exact digitChar_range _ (Nat.mod_lt _ (by omega))
  · intro hmem
    rcases List.mem_append.mp hmem with h | h
    · split at h
      · simp only [List.mem_singleton] at h
        exact absurd (congrArg Char.toNat h) (by decide)
      · simp at h
    · have := natDigits_chars _ _ h
      have h46 : ('.').toNat = 46 := rfl
      rw [h46] at this
      omega

instance (c : Char) : Decidable (isUpperHexChar c) := by
  unfold isUpperHexChar
  infer_instance

lemma hexCharU_upper : ∀ d : ℕ, d < 16 → isUpperHexChar (hexCharU d) := by
  decide

lemma hex4_upper (n : ℕ) : ∀ c ∈ hex4 n, isUpperHexChar c := by
  intro c hc
  simp only [hex4, List.mem_cons, List.not_mem_nil, or_false] at hc
  rcases hc with h | h | h | h <;> subst h <;>
    exact hexCharU_upper _ (Nat.mod_lt _ (by norm_num))

/-! ## Claim C6: wire-frame format -/

/-- C6: every Level-2 frame is exactly `'$' + payload + '*' + checksum +
newline`; the payload is the tag "L2" followed by six comma-joined fields
(integer millisecond timestamp, then roll, pitch, heading, altitude,
temperature each formatted with exactly 2 decimal places); the checksum is
the CRC16 of exactly the bytes strictly between `$` and `*`; and the
checksum is rendered as four uppercase hex digits (zero-padded). -/
theorem frame_format (ts : ℕ) (roll pitch yaw alt temp : ℚ) :
    frameChars ts roll pitch yaw alt temp =
      ['$'] ++ payloadChars ts roll pitch yaw alt temp ++ ['*'] ++
        hex4 (crc16_ccitt
          ((payloadChars ts roll pitch yaw alt temp).map Char.toNat)) ++ ['\n'] ∧
    payloadChars ts roll pitch yaw alt temp =
      ['L', '2', ','] ++ natDigits ts ++ [','] ++ fmt2 roll ++ [','] ++
        fmt2 pitch ++ [','] ++ fmt2 yaw ++ [','] ++ fmt2 alt ++ [','] ++
        fmt2 temp ∧
    extractBetween (frameChars ts roll pitch yaw alt temp) =
      payloadChars ts roll pitch yaw alt temp ∧
    (hex4 (crc16_ccitt
      ((payloadChars ts roll pitch yaw alt temp).map Char.toNat))).length = 4 ∧
    (∀ c ∈ hex4 (crc16_ccitt
      ((payloadChars ts roll pitch yaw alt temp).map Char.toNat)),
      isUpperHexChar c) ∧
    twoDecimals (fmt2 roll) ∧ twoDecimals (fmt2 pitch) ∧
    twoDecimals (fmt2 yaw) ∧ twoDecimals (fmt2 alt) ∧ twoDecimals (fmt2 temp) :=
  ⟨rfl, rfl, extractBetween_frame ts roll pitch yaw alt temp, rfl,
   hex4_upper _, fmt2_twoDecimals roll, fmt2_twoDecimals pitch,
   fmt2_twoDecimals yaw, fmt2_twoDecimals alt, fmt2_twoDecimals temp⟩

/-! ## Claim C7: constant-gz heading ramp

With `gx = gy = 0, gz = 10` deg/s and `dt = 0.05` s, the filter state stays
of the form `(cos θ, 0, 0, sin θ)` and each update advances `θ` by
`arctan (π/720)`, so the heading advances by `(360/π)·arctan (π/720)` —
slightly below, and within `0.001` of, `0.5` degrees per tick. -/

lemma madgwick_update_branch (s : ImuSample) (dt : ℝ) (q : Quat)
    (ha : Real.sqrt (s.ax * s.ax + s.ay * s.ay + s.az * s.az) ≠ 0)
    (hm : Real.sqrt (s.mx * s.mx + s.my * s.my + s.mz * s.mz) ≠ 0) :
    madgwick_update s dt q =
      madgwick_normalize
        (madgwick_integrate q (deg2rad s.gx) (deg2rad s.gy) (deg2rad s.gz) dt) := by
  unfold madgwick_update
  simp only [if_neg ha, if_neg hm]

/-- The fixed sample of the C7 scenario: gyroscope `(0, 0, 10)` deg/s with
arbitrary accelerometer and magnetometer vectors. -/
noncomputable def steadyYawSample (ax ay az mx my mz : ℝ) : ImuSample :=
  ⟨ax, ay, az, 0, 0, 10, mx, my, mz⟩

/-- The quaternion state after `n` ticks of the C7 scenario (`dt = 0.05`),
starting from the initial quaternion. -/
noncomputable def traceQuat (s : ImuSample) (n : ℕ) : Quat :=
  (fun q => madgwick_update s 0.05 q)^[n] initQuat

/-- The heading (yaw) reading after `n` ticks of the C7 scenario. -/
noncomputable def headingAt (s : ImuSample) (n : ℕ) : ℝ :=
  ((ahrs_get_euler (traceQuat s n)).1).2.2

lemma madgwick_step_z (ax ay az mx my mz θ : ℝ)
    (ha : Real.sqrt (ax * ax + ay * ay + az * az) ≠ 0)
    (hm : Real.sqrt (mx * mx + my * my + mz * mz) ≠ 0) :
    madgwick_update (steadyYawSample ax ay az mx my mz) 0.05
        ⟨Real.cos θ, 0, 0, Real.sin θ⟩ =
      ⟨Real.cos (θ + Real.arctan (Real.pi / 720)), 0, 0,
       Real.sin (θ + Real.arctan (Real.pi / 720))⟩ := by
  have hs : steadyYawSample ax ay az mx my mz = ⟨ax, ay, az, 0, 0, 10, mx, my, mz⟩ := rfl
  rw [madgwick_update_branch _ _ _ (by rw [hs]; exact ha) (by rw [hs]; exact hm)]
  have hint : madgwick_integrate ⟨Real.cos θ, 0, 0, Real.sin θ⟩
      (deg2rad (steadyYawSample ax ay az mx my mz).gx)
      (deg2rad (steadyYawSample ax ay az mx my mz).gy)
      (deg2rad (steadyYawSample ax ay az mx my mz).gz) 0.05 =
      ⟨Real.cos θ - Real.sin θ * (Real.pi / 720), 0, 0,
       Real.sin θ + Real.cos θ * (Real.pi / 720)⟩ := by
    rw [hs]
    unfold madgwick_integrate deg2rad
    simp only [Quat.mk.injEq]
    refine ⟨by ring, by ring, by ring, by ring⟩
  rw [hint]
  unfold madgwick_normalize inv_sqrt
  have hS : (Real.cos θ - Real.sin θ * (Real.pi / 720)) *
        (Real.cos θ - Real.sin θ * (Real.pi / 720)) + 0 * 0 + 0 * 0 +
        (Real.sin θ + Real.cos θ * (Real.pi / 720)) *
        (Real.sin θ + Real.cos θ * (Real.pi / 720)) =
      1 + (Real.pi / 720) ^ 2 := by
    have hsc := Real.sin_sq_add_cos_sq θ
    linear_combination (1 + (Real.pi / 720) ^ 2) * hsc
  simp only
  rw [hS]
  have hca := Real.cos_arctan (Real.pi / 720)
  have hsa := Real.sin_arctan (Real.pi / 720)
  simp only [Quat.mk.injEq]
  refine ⟨?_, by ring, by ring, ?_⟩
  · rw [Real.cos_add, hca, hsa]
    ring
  · rw [Real.sin_add, hca, hsa]
    ring

lemma traceQuat_closed (ax ay az mx my mz : ℝ)
    (ha : Real.sqrt (ax * ax + ay * ay + az * az) ≠ 0)
    (hm : Real.sqrt (mx * mx + my * my + mz * mz) ≠ 0) (n : ℕ) :
    traceQuat (steadyYawSample ax ay az mx my mz) n =
      ⟨Real.cos (n * Real.arctan (Real.pi / 720)), 0, 0,
       Real.sin (n * Real.arctan (Real.pi / 720))⟩ := by
  induction n with
  | zero =>
      unfold traceQuat
      simp [initQuat]
  | succ m ih =>
      unfold traceQuat at ih ⊢
      rw [Function.iterate_succ_apply', ih, madgwick_step_z ax ay az mx my mz _ ha hm]
      have hc : (m : ℝ) * Real.arctan (Real.pi / 720) + Real.arctan (Real.pi / 720) =
          ((m + 1 : ℕ) : ℝ) * Real.arctan (Real.pi / 720) := by
        push_cast
        ring
      rw [hc]

lemma arctan_lt_self {x : ℝ} (hx : 0 < x) : Real.arctan x < x := by
  rcases lt_or_le x (Real.pi / 2) with h | h
  · calc Real.arctan x < Real.arctan (Real.tan x) :=
          Real.arctan_strictMono (Real.lt_tan hx h)
      _ = x := Real.arctan_tan (by linarith [Real.pi_pos]) h
  · exact lt_of_lt_of_le (Real.arctan_lt_pi_div_two x) h

lemma arctan_alpha_pos : 0 < Real.arctan (Real.pi / 720) := by
  have h : (0 : ℝ) < Real.pi / 720 := by positivity
  calc (0 : ℝ) = Real.arctan 0 := Real.arctan_zero.symm
    _ < Real.arctan (Real.pi / 720) := Real.arctan_strictMono h

lemma arctan_alpha_lt : Real.arctan (Real.pi / 720) < Real.pi / 720 :=
  arctan_lt_self (by positivity)

lemma arctan_alpha_gt : 0.998 * (Real.pi / 720) < Real.arctan (Real.pi / 720) := by
  have hx_pos : (0 : ℝ) < Real.pi / 720 := by positivity
  have hx_lt : Real.pi / 720 < 0.0044 := by
    have := Real.pi_lt_d2
    nlinarith
  have hc_pos : (0 : ℝ) < 0.998 * (Real.pi / 720) := by positivity
  have hc_lt : 0.998 * (Real.pi / 720) < 0.0044 := by nlinarith
  have hcos : (0.998 : ℝ) < Real.cos (0.998 * (Real.pi / 720)) := by
    have h1 : 1 - (0.998 * (Real.pi / 720)) ^ 2 / 2 <
        Real.cos (0.998 * (Real.pi / 720)) :=
      Real.one_sub_sq_div_two_lt_cos (ne_of_gt hc_pos)
    nlinarith
  have hsin : Real.sin (0.998 * (Real.pi / 720)) < 0.998 * (Real.pi / 720) :=
    Real.sin_lt hc_pos
  have hcpos2 : (0 : ℝ) < Real.cos (0.998 * (Real.pi / 720)) := by linarith
  have htan : Real.tan (0.998 * (Real.pi / 720)) < Real.pi / 720 := by
    rw [Real.tan_eq_sin_div_cos, div_lt_iff₀ hcpos2]
    nlinarith
  have hc_half : 0.998 * (Real.pi / 720) < Real.pi / 2 := by
    nlinarith [Real.pi_gt_three]
  calc 0.998 * (Real.pi / 720)
      = Real.arctan (Real.tan (0.998 * (Real.pi / 720))) :=
        (Real.arctan_tan (by linarith [Real.pi_pos]) hc_half).symm
    _ < Real.arctan (Real.pi / 720) := Real.arctan_strictMono htan

lemma headingAt_closed (ax ay az mx my mz : ℝ)
    (ha : Real.sqrt (ax * ax + ay * ay + az * az) ≠ 0)
    (hm : Real.sqrt (mx * mx + my * my + mz * mz) ≠ 0) (n : ℕ) (hn : n ≤ 20) :
    headingAt (steadyYawSample ax ay az mx my mz) n =
      rad2deg (2 * (n * Real.arctan (Real.pi / 720))) := by
  unfold headingAt ahrs_get_euler
  rw [traceQuat_closed ax ay az mx my mz ha hm n]
  simp only
  have harg1 : 2 * (Real.cos (n * Real.arctan (Real.pi / 720)) *
        Real.sin (n * Real.arctan (Real.pi / 720)) + 0 * 0) =
      Real.sin (2 * (n * Real.arctan (Real.pi / 720))) := by
    rw [Real.sin_two_mul]
    ring
  have harg2 : 1 - 2 * (0 * 0 + Real.sin (n * Real.arctan (Real.pi / 720)) *
        Real.sin (n * Real.arctan (Real.pi / 720))) =
      Real.cos (2 * (n * Real.arctan (Real.pi / 720))) := by
    rw [Real.cos_two_mul, Real.cos_sq']
    ring
  rw [harg1, harg2]
  have hα_pos := arctan_alpha_pos
  have hα_lt := arctan_alpha_lt
  have hn' : (n : ℝ) ≤ 20 := by exact_mod_cast hn
  have hub : 2 * ((n : ℝ) * Real.arctan (Real.pi / 720)) < Real.pi / 2 := by
    have h1 : 2 * ((n : ℝ) * Real.arctan (Real.pi / 720)) ≤
        40 * Real.arctan (Real.pi / 720) := by nlinarith
    have h2 : (40 : ℝ) * Real.arctan (Real.pi / 720) < 40 * (Real.pi / 720) := by
      nlinarith
    nlinarith [Real.pi_pos]
  have hlb : -(Real.pi / 2) < 2 * ((n : ℝ) * Real.arctan (Real.pi / 720)) := by
    have : (0 : ℝ) ≤ (n : ℝ) * Real.arctan (Real.pi / 720) := by positivity
    nlinarith [Real.pi_pos]
  have hcospos : 0 < Real.cos (2 * ((n : ℝ) * Real.arctan (Real.pi / 720))) :=
    Real.cos_pos_of_mem_Ioo ⟨hlb, hub⟩
  unfold atan2
  rw [if_pos hcospos, ← Real.tan_eq_sin_div_cos, Real.arctan_tan hlb hub]

/-- C7: starting from the identity quaternion, 20 consecutive updates with
the constant sample `gx = 0, gy = 0, gz = 10` deg/s (accelerometer and
magnetometer non-degenerate) and `dt = 0.05` s yield a heading that
increases monotonically, gaining strictly between 0.499 and 0.5 degrees at
every tick (≈ 10 deg/s · 0.05 s = 0.5 deg, up to the renormalization-induced
deficit `(360/π)·arctan(π/720) < 0.5`). -/
theorem heading_ramp (ax ay az mx my mz : ℝ)
    (ha : Real.sqrt (ax * ax + ay * ay + az * az) ≠ 0)
    (hm : Real.sqrt (mx * mx + my * my + mz * mz) ≠ 0)
    (n : ℕ) (hn : n < 20) :
    headingAt (steadyYawSample ax ay az mx my mz) n <
      headingAt (steadyYawSample ax ay az mx my mz) (n + 1) ∧
    0.499 < headingAt (steadyYawSample ax ay az mx my mz) (n + 1) -
      headingAt (steadyYawSample ax ay az mx my mz) n ∧
    headingAt (steadyYawSample ax ay az mx my mz) (n + 1) -
      headingAt (steadyYawSample ax ay az mx my mz) n < 0.5 := by
  rw [headingAt_closed ax ay az mx my mz ha hm n (by omega),
    headingAt_closed ax ay az mx my mz ha hm (n + 1) (by omega)]
  unfold rad2deg
  have hπ := Real.pi_pos
  have hdiff : 2 * (((n : ℕ) + 1 : ℕ) * Real.arctan (Real.pi / 720)) * (180 / Real.pi) -
      2 * ((n : ℝ) * Real.arctan (Real.pi / 720)) * (180 / Real.pi) =
      360 * Real.arctan (Real.pi / 720) / Real.pi := by
    push_cast
    field_simp
    ring
  have hgt := arctan_alpha_gt
  have hlt := arctan_alpha_lt
  refine ⟨?_, ?_, ?_⟩
  · have h1 : (0 : ℝ) < 360 * Real.arctan (Real.pi / 720) / Real.pi := by
      have := arctan_alpha_pos
      positivity
    nlinarith [hdiff]
  · have : (0.499 : ℝ) < 360 * Real.arctan (Real.pi / 720) / Real.pi := by
      rw [lt_div_iff₀ hπ]
      linarith
    nlinarith [hdiff]
  · have : 360 * Real.arctan (Real.pi / 720) / Real.pi < 0.5 := by
      rw [div_lt_iff₀ hπ]
      linarith
    nlinarith [hdiff]

/-- Witness for C7 at a concrete non-degenerate sample (accelerometer
`(0,0,1)`, magnetometer `(1,0,0)`), first tick. -/
theorem heading_ramp_witness :
    headingAt (steadyYawSample 0 0 1 1 0 0) 0 <
      headingAt (steadyYawSample 0 0 1 1 0 0) 1 ∧
    0.499 < headingAt (steadyYawSample 0 0 1 1 0 0) 1 -
      headingAt (steadyYawSample 0 0 1 1 0 0) 0 ∧
    headingAt (steadyYawSample 0 0 1 1 0 0) 1 -
      headingAt (steadyYawSample 0 0 1 1 0 0) 0 < 0.5 :=
  heading_ramp 0 0 1 1 0 0
    (by rw [Real.sqrt_ne_zero']; norm_num)
    (by rw [Real.sqrt_ne_zero']; norm_num)
    0 (by norm_num)

end Airman
